import Mathlib

/-!
Shallow embedding of `gen_san_strings.py`, a generator for the catalogue of
all syntactically possible chess SAN (standard algebraic notation) strings.

Squares are indices `Fin 64` (square = rank * 8 + file, as in python-chess).
Bitboards (`chess.Bitboard`) are embedded as `Nat` bit masks, exactly as in
the source, where they are python integers combined with `&`, `|` and `~`;
the python integers are unbounded, and `~x` is the negative two's-complement
value, but every `a &= ~b` in the source has `a` within the 64 low bits, so
it equals `a &&& (BB_ALL ^^^ b)`, which is how `bb_not` embeds `~`.
San-string sets (python `set`) are embedded as the `toFinset` of the list of
strings the loops add, so that set membership is exactly membership in the
accumulation.
-/

set_option maxRecDepth 40000

namespace SanStrings

/-- Squares of the 8x8 board, indexed 0..63 as in python-chess
(`chess.SQUARES`): index = rank * 8 + file, a1 = 0, h8 = 63. -/
abbrev Square := Fin 64

/-- Bitboards, as in python-chess: a bit mask of squares. -/
abbrev Bitboard := Nat

/-- Embeds `chess.square_file`: file index (column) of a square, 0..7. -/
def square_file (s : Square) : Nat := s.val % 8

/-- Embeds `chess.square_rank`: rank index (row) of a square, 0..7. -/
def square_rank (s : Square) : Nat := s.val / 8

/-- Embeds `chess.FILE_NAMES`. -/
def FILE_NAMES : List String := ["a", "b", "c", "d", "e", "f", "g", "h"]

/-- Embeds `chess.RANK_NAMES`. -/
def RANK_NAMES : List String := ["1", "2", "3", "4", "5", "6", "7", "8"]

/-- Embeds `chess.square_name`: file name followed by rank name, e.g. "e4". -/
def square_name (s : Square) : String :=
  FILE_NAMES.getD (square_file s) "" ++ RANK_NAMES.getD (square_rank s) ""

/-- Embeds `chess.square_distance`: Chebyshev distance between two squares
(max of the absolute file and rank differences). -/
def square_distance (a b : Square) : Nat :=
  max ((square_file a : Int) - (square_file b : Int)).natAbs
      ((square_rank a : Int) - (square_rank b : Int)).natAbs

/-- Embeds `chess.BB_ALL`: all 64 squares. -/
def BB_ALL : Bitboard := 0xffffffffffffffff

/-- Embeds `chess.BB_SQUARES[s]`: the singleton mask of square `s`. -/
def BB_SQUARES (s : Square) : Bitboard := 1 <<< s.val

/-- Embeds `chess.BB_FILES[f]`: the mask of squares on file `f`
(python-chess shifts the a-file mask left by the file index). -/
def BB_FILES (f : Nat) : Bitboard := 0x0101010101010101 <<< f

/-- Embeds `chess.BB_RANKS[r]`: the mask of squares on rank `r`. -/
def BB_RANKS (r : Nat) : Bitboard := 0xff <<< (8 * r)

/-- Embeds `chess.BB_BACKRANKS`: rank index 0 union rank index 7. -/
def BB_BACKRANKS : Bitboard := BB_RANKS 0 ||| BB_RANKS 7

/-- Embeds python's `bb &= ~mask` on bitboards: since every mask the source
complements lies within `BB_ALL` and the result is anded with a bitboard
within `BB_ALL`, the unbounded two's-complement `~` acts as the complement
within `BB_ALL`. -/
def bb_not (bb : Bitboard) : Bitboard := BB_ALL ^^^ bb

/-- Membership of a square in a bitboard: its bit is set.  This is what
iteration over a `chess.SquareSet` and python's `in` test on it use. -/
def mem_bb (s : Square) (bb : Bitboard) : Prop := bb.testBit s.val = true

instance (s : Square) (bb : Bitboard) : Decidable (mem_bb s bb) := by
  unfold mem_bb; infer_instance

/-- Embeds `_sign` from the source: the sign of `x` as -1, 0, or 1. -/
def _sign (x : Int) : Int :=
  (if 0 < x then 1 else 0) - (if x < 0 then 1 else 0)

/-- Embeds `_sliding_delta` from the source: the index delta in
`chess.SQUARES` for one step from `s1` toward `s2`.  The two `assert`
statements of the source (distinct squares; same file, rank, or diagonal)
are embedded as `none`. -/
def _sliding_delta (s1 s2 : Square) : Option Int :=
  if s1 = s2 then none
  else
    let x_delta : Int := (square_file s2 : Int) - (square_file s1 : Int)
    let y_delta : Int := (square_rank s2 : Int) - (square_rank s1 : Int)
    if x_delta = 0 ∨ y_delta = 0 ∨ x_delta.natAbs = y_delta.natAbs then
      some (_sign y_delta * 8 + _sign x_delta)
    else none

/-- One direction of `chess._sliding_attacks`: starting at `sq`, repeatedly
add `d` to the square index, stopping at the board edge (index out of
0..63, or a wraparound detected by a Chebyshev distance above 2 between
consecutive squares, exactly as python-chess does) or just after adding an
occupied square.  The fuel argument only makes the recursion structural; 64
steps always reach an edge for the nonzero deltas used. -/
def slidingWalk (occupied : Bitboard) (d : Int) : Nat → Square → Bitboard
  | 0, _ => 0
  | fuel + 1, sq =>
    let i : Int := (sq.val : Int) + d
    if h : 0 ≤ i ∧ i < 64 then
      let sq2 : Square := ⟨i.toNat, by omega⟩
      if square_distance sq2 sq > 2 then 0
      else
        BB_SQUARES sq2 |||
          (if occupied.testBit sq2.val then 0 else slidingWalk occupied d fuel sq2)
    else 0

/-- Embeds `chess._sliding_attacks(square, occupied, deltas)`. -/
def _sliding_attacks (square : Square) (occupied : Bitboard)
    (deltas : List Int) : Bitboard :=
  deltas.foldl (fun acc d => acc ||| slidingWalk occupied d 64 square) 0

/-- Embeds `chess._step_attacks`: like `_sliding_attacks` but stopping after
one step in each direction (python-chess passes `BB_ALL` as the occupancy). -/
def _step_attacks (square : Square) (deltas : List Int) : Bitboard :=
  _sliding_attacks square BB_ALL deltas

/-- Embeds `_extend_ray_from_towards` from the source: all squares from (and
including) `from_sq` toward `towards_sq`, continuing to a board edge.
Returns `none` where the source raises `AssertionError` (inside
`_sliding_delta`). -/
def _extend_ray_from_towards (from_sq towards_sq : Square) : Option Bitboard :=
  (_sliding_delta from_sq towards_sq).map
    (fun d => _sliding_attacks from_sq 0 [d] ||| BB_SQUARES from_sq)

/-- The bitboard `bb_ray` as used inside `get_piece_sans`: the value of
`_extend_ray_from_towards(to_square, from_square)` at call sites where the
source has established that it does not raise, the attack origin sharing a
line with the target (so the default 0 is never taken there). -/
def bb_ray (from_sq towards_sq : Square) : Bitboard :=
  (_extend_ray_from_towards from_sq towards_sq).getD 0

/-- Predicate used by the spec and by the asserts of `_sliding_delta`: the
two squares share a file, a rank, or a diagonal. -/
def shares_line (a b : Square) : Prop :=
  square_file a = square_file b ∨ square_rank a = square_rank b ∨
    ((square_file a : Int) - (square_file b : Int)).natAbs =
      ((square_rank a : Int) - (square_rank b : Int)).natAbs

instance (a b : Square) : Decidable (shares_line a b) := by
  unfold shares_line; infer_instance

/-- The four piece symbols accepted by `get_piece_sans`. -/
inductive PieceSymbol | N | B | R | Q
deriving DecidableEq

/-- The SAN letter of a piece symbol. -/
def PieceSymbol.symbol : PieceSymbol → String
  | .N => "N"
  | .B => "B"
  | .R => "R"
  | .Q => "Q"

/-- Embeds `_b.attacks(to_square)` for a lone piece placed on an otherwise
empty board, following the python-chess attack tables: knights use the fixed
offset table, bishops / rooks / queens slide along their deltas to the edge
(the board is empty, so nothing blocks). -/
def attacks_bb : PieceSymbol → Square → Bitboard
  | .N, s => _step_attacks s [17, 15, 10, 6, -17, -15, -10, -6]
  | .B, s => _sliding_attacks s 0 [-9, -7, 7, 9]
  | .R, s => _sliding_attacks s 0 [-8, 8, -1, 1]
  | .Q, s => _sliding_attacks s 0 [-9, -7, 7, 9] ||| _sliding_attacks s 0 [-8, 8, -1, 1]

/-- Embeds `is_sliding_piece` from `get_piece_sans`:
`piece.piece_type != chess.KNIGHT`. -/
def is_sliding_piece (p : PieceSymbol) : Prop := p ≠ PieceSymbol.N

instance (p : PieceSymbol) : Decidable (is_sliding_piece p) := by
  unfold is_sliding_piece; infer_instance

/-- The bitboard `bb` of `get_piece_sans` after its first masking step:
`bb = bb_attacks`, then `bb &= ~bb_ray` for sliding pieces or
`bb &= ~chess.BB_SQUARES[from_square]` for knights.  All three
discriminator checks start from this value. -/
def bb_base (p : PieceSymbol) (to_square from_square : Square) : Bitboard :=
  if is_sliding_piece p then
    attacks_bb p to_square &&& bb_not (bb_ray to_square from_square)
  else
    attacks_bb p to_square &&& bb_not (BB_SQUARES from_square)

/-- The file-discriminator test of `get_piece_sans`: after also masking off
`from_square`'s own file, `any(bb_file & bb for bb_file in chess.BB_FILES)`. -/
def file_discriminator_cond (p : PieceSymbol) (to_square from_square : Square) : Prop :=
  ∃ f : Fin 8,
    BB_FILES f &&& (bb_base p to_square from_square &&& bb_not (BB_FILES (square_file from_square))) ≠ 0

/-- The rank-discriminator test of `get_piece_sans`: after intersecting with
`from_square`'s own file, `any(bb_rank & bb for bb_rank in chess.BB_RANKS)`. -/
def rank_discriminator_cond (p : PieceSymbol) (to_square from_square : Square) : Prop :=
  ∃ r : Fin 8,
    BB_RANKS r &&& (bb_base p to_square from_square &&& BB_FILES (square_file from_square)) ≠ 0

/-- The full-square-discriminator test of `get_piece_sans`:
`(bb & bb_from_square_file) and (bb & bb_from_square_rank)`. -/
def square_discriminator_cond (p : PieceSymbol) (to_square from_square : Square) : Prop :=
  bb_base p to_square from_square &&& BB_FILES (square_file from_square) ≠ 0 ∧
  bb_base p to_square from_square &&& BB_RANKS (square_rank from_square) ≠ 0

instance (p : PieceSymbol) (t f : Square) : Decidable (file_discriminator_cond p t f) := by
  unfold file_discriminator_cond; infer_instance

instance (p : PieceSymbol) (t f : Square) : Decidable (rank_discriminator_cond p t f) := by
  unfold rank_discriminator_cond; infer_instance

instance (p : PieceSymbol) (t f : Square) : Decidable (square_discriminator_cond p t f) := by
  unfold square_discriminator_cond; infer_instance

/-- Embeds the list `chess.SQUARES` (all 64 squares in index order); also
the ascending order in which a `chess.SquareSet` iterates its squares. -/
def squaresList : List Square := List.finRange 64

/-- Embeds `add_sans` from `get_piece_sans`: the two strings (non-capturing
and capturing) added for a discriminator and a target square. -/
def add_sans_list (symbol discriminator : String) (to_square : Square) : List String :=
  ["", "x"].map (fun capture => symbol ++ discriminator ++ capture ++ square_name to_square)

/-- The strings `get_piece_sans` adds while processing one `to_square`: the
undiscriminated pair, then, for each `from_square` in the attack set, the
pairs guarded by the three discriminator tests. -/
def piece_sans_at (p : PieceSymbol) (to_square : Square) : List String :=
  add_sans_list p.symbol "" to_square ++
  (squaresList.filter (fun o => mem_bb o (attacks_bb p to_square))).flatMap
    (fun from_square =>
      (if file_discriminator_cond p to_square from_square then
        add_sans_list p.symbol (FILE_NAMES.getD (square_file from_square) "") to_square
      else []) ++
      (if rank_discriminator_cond p to_square from_square then
        add_sans_list p.symbol (RANK_NAMES.getD (square_rank from_square) "") to_square
      else []) ++
      (if square_discriminator_cond p to_square from_square then
        add_sans_list p.symbol (square_name from_square) to_square
      else []))

/-- All strings `get_piece_sans` adds, over all target squares. -/
def piece_san_list (p : PieceSymbol) : List String :=
  squaresList.flatMap (piece_sans_at p)

/-- Embeds `get_piece_sans(symbol)`: the resulting python `set` of SAN
strings. -/
def get_piece_sans (p : PieceSymbol) : Finset String :=
  (piece_san_list p).toFinset

/-- Embeds `chess.WHITE` (python-chess colors are booleans, WHITE = True). -/
def WHITE : Bool := true

/-- Embeds `chess.BLACK`. -/
def BLACK : Bool := false

/-- Embeds `PAWN_OCCUPIABLE` from `get_pawn_sans`:
`chess.SquareSet(chess.BB_ALL - chess.BB_BACKRANKS)`, i.e. every square not
on rank index 0 or 7, iterated in square order. -/
def PAWN_OCCUPIABLE : List Square :=
  squaresList.filter (fun s => (BB_ALL - BB_BACKRANKS).testBit s.val)

/-- Embeds `chess.BB_PAWN_ATTACKS[color][sq]` (used via `_b.attacks` on the
board holding one pawn): `_step_attacks` with deltas `[7, 9]` for White and
`[-7, -9]` for Black. -/
def pawn_attacks (color : Bool) (s : Square) : Bitboard :=
  _step_attacks s (if color then [7, 9] else [-7, -9])

/-- The pawn push direction as a square-index delta: +8 for White, -8 for
Black (python-chess pawn move generation). -/
def pawnDir (color : Bool) : Int := if color then 8 else -8

/-- Adds `d` to a square index, `none` past the board edge. -/
def shiftSquare (s : Square) (d : Int) : Option Square :=
  let i : Int := (s.val : Int) + d
  if h : 0 ≤ i ∧ i < 64 then some ⟨i.toNat, by omega⟩ else none

/-- The starting rank of `color`'s pawns (double pushes allowed from here):
rank index 1 for White, 6 for Black. -/
def pawn_start_rank (color : Bool) : Nat := if color then 1 else 6

/-- The promotion rank of `color`'s pawns: rank index 7 for White, 0 for
Black. -/
def pawn_back_rank (color : Bool) : Nat := if color then 7 else 0

/-- Embeds the `(from, to)` pairs of `_b.legal_moves` for the board that
`get_pawn_sans` constructs: one `color` pawn on `from_sq` plus enemy pawns
on each of its attack squares.  With no kings on the board, python-chess
legality coincides with pseudo-legality, so the moves are the diagonal
captures (every attack square holds an enemy pawn), the single push (the
push file is free: the enemy pawns sit on neighbouring files), and the
double push from the starting rank (its path is likewise free). -/
def pawn_moves_from (color : Bool) (from_sq : Square) : List (Square × Square) :=
  ((squaresList.filter (fun t => mem_bb t (pawn_attacks color from_sq))).map
      (fun t => (from_sq, t))) ++
  (match shiftSquare from_sq (pawnDir color) with
    | some t => [(from_sq, t)]
    | none => []) ++
  (if square_rank from_sq = pawn_start_rank color then
    match shiftSquare from_sq (2 * pawnDir color) with
    | some t => [(from_sq, t)]
    | none => []
  else [])

/-- The bare (suffix-free) SAN of a pawn move as produced by `_b.san`:
the target name for a push, `<origin file>x<target>` for a capture (on the
constructed board a pawn move is a capture exactly when it changes file). -/
def pawn_move_base (m : Square × Square) : String :=
  if square_file m.1 = square_file m.2 then square_name m.2
  else FILE_NAMES.getD (square_file m.1) "" ++ "x" ++ square_name m.2

/-- Embeds `_b.san(move)` for the generated pawn moves, promotion variants
included: a move landing on the back rank is generated by python-chess once
per promotable piece, rendering `=Q`, `=R`, `=B`, `=N` suffixes; there is no
check suffix because the constructed board has no kings. -/
def pawn_move_san (color : Bool) (m : Square × Square) : List String :=
  if square_rank m.2 = pawn_back_rank color then
    ["Q", "R", "B", "N"].map (fun promo => pawn_move_base m ++ "=" ++ promo)
  else [pawn_move_base m]

/-- The strings `add_pawn_sans_for_color` adds for one color. -/
def pawn_san_list_for_color (color : Bool) : List String :=
  PAWN_OCCUPIABLE.flatMap (fun from_sq =>
    (pawn_moves_from color from_sq).flatMap (pawn_move_san color))

/-- The strings `get_pawn_sans` accumulates, following its two guarded
calls: White when `only_for_color in (chess.WHITE, None)`, Black when
`only_for_color in (chess.BLACK, None)`. -/
def pawn_san_list (only_for_color : Option Bool) : List String :=
  (if only_for_color = some WHITE ∨ only_for_color = none then
    pawn_san_list_for_color WHITE
  else []) ++
  (if only_for_color = some BLACK ∨ only_for_color = none then
    pawn_san_list_for_color BLACK
  else [])

/-- Embeds `get_pawn_sans(only_for_color)`: the resulting python `set`. -/
def get_pawn_sans (only_for_color : Option Bool) : Finset String :=
  (pawn_san_list only_for_color).toFinset

/-- The set of generated pawn moves of one color, for stating properties
per move. -/
def pawn_moves (color : Bool) : Finset (Square × Square) :=
  (PAWN_OCCUPIABLE.flatMap (pawn_moves_from color)).toFinset

/-- The strings `get_king_sans` adds: for every target square the
non-capturing and capturing king move, plus the two castling tokens. -/
def king_san_list : List String :=
  squaresList.flatMap (fun to_square =>
    ["K" ++ square_name to_square, "Kx" ++ square_name to_square]) ++
  ["O-O", "O-O-O"]

/-- Embeds `get_king_sans()`: the resulting python `set`. -/
def get_king_sans : Finset String :=
  king_san_list.toFinset

/-- Embeds `all_sans` from `main`: the union of the pawn, knight, bishop,
rook, queen and king SAN sets. -/
def all_sans : Finset String :=
  get_pawn_sans none ∪ get_piece_sans .N ∪ get_piece_sans .B ∪
    get_piece_sans .R ∪ get_piece_sans .Q ∪ get_king_sans

/-- Embeds `sort_key`: python sorts by the tuple `(len(s), s)`, i.e. length
first, then lexicographically.  Boolean form used as the mergeSort
comparator. -/
def sanLE (a b : String) : Bool :=
  decide (a.length < b.length ∨ (a.length = b.length ∧ a ≤ b))

/-- The order `sort_key` induces, as a relation: length ascending, ties
broken lexicographically (code points, as in python). -/
def san_key_order (a b : String) : Prop :=
  a.length < b.length ∨ (a.length = b.length ∧ a ≤ b)

instance : DecidableRel san_key_order := by
  unfold san_key_order; infer_instance

instance : IsTrans String san_key_order := by
  constructor
  intro a b c hab hbc
  rcases hab with h | ⟨h1, h2⟩ <;> rcases hbc with h' | ⟨h1', h2'⟩
  · exact Or.inl (Nat.lt_trans h h')
  · exact Or.inl (h1' ▸ h)
  · exact Or.inl (h1 ▸ h')
  · exact Or.inr ⟨h1.trans h1', le_trans h2 h2'⟩

instance : IsAntisymm String san_key_order := by
  constructor
  intro a b hab hba
  rcases hab with h | ⟨_, h2⟩ <;> rcases hba with h' | ⟨h1', h2'⟩ <;>
    first
      | exact absurd h' (by omega)
      | exact absurd h (by omega)
      | exact le_antisymm h2 h2'

instance : IsTotal String san_key_order := by
  constructor
  intro a b
  rcases Nat.lt_trichotomy a.length b.length with h | h | h
  · exact Or.inl (Or.inl h)
  · rcases le_total a b with h' | h'
    · exact Or.inl (Or.inr ⟨h, h'⟩)
    · exact Or.inr (Or.inr ⟨h.symm, h'⟩)
  · exact Or.inr (Or.inl h)

/-- Embeds `all_sans = sorted(all_sans, key=sort_key)` from `main`:
sequence A, the set's elements sorted by the key order. -/
def seqA : List String :=
  all_sans.sort san_key_order

/-- Embeds `all_sans_with_symbols` from `main`: sequence B, the catalogue
crossed with the empty, check and mate suffixes, sorted by the same key. -/
def seqB : List String :=
  (["", "+", "#"].flatMap (fun symbol => seqA.map (fun san => san ++ symbol))).mergeSort sanLE

/-- The eight unit directions (file step, rank step) a delta can point in. -/
def dirList : List (Int × Int) :=
  [(-1, -1), (0, -1), (1, -1), (-1, 0), (1, 0), (-1, 1), (0, 1), (1, 1)]

/-- Squares reached from `o` by taking k >= 0 steps of `(dx, dy)` in
file / rank coordinates, up to the board edge (once a coordinate leaves the
board it never returns, the steps being monotone). -/
def ray_spec_dir (o : Square) (dx dy : Int) : Bitboard :=
  (List.range 8).foldl (fun acc k =>
    let f : Int := (square_file o : Int) + k * dx
    let r : Int := (square_rank o : Int) + k * dy
    if 0 ≤ f ∧ f < 8 ∧ 0 ≤ r ∧ r < 8 then acc ||| (1 <<< (r * 8 + f).toNat) else acc) 0

/-- Geometric description of the ray, following the docstring of
`_extend_ray_from_towards`: the squares reached from `origin` by taking
k >= 0 unit steps in the direction of `towards` (file and rank each advance
by the sign of their difference), continuing to the board edge. -/
def ray_spec (origin towards : Square) : Bitboard :=
  ray_spec_dir origin
    (_sign ((square_file towards : Int) - (square_file origin : Int)))
    (_sign ((square_rank towards : Int) - (square_rank origin : Int)))

/-- The discriminator strings of the notation: the empty discriminator, a
file name, a rank name, or a full square name. -/
def discriminator_strings : List String :=
  "" :: (FILE_NAMES ++ RANK_NAMES ++ squaresList.map square_name)

theorem square_file_lt (s : Square) : square_file s < 8 := by
  unfold square_file; omega

theorem square_rank_lt (s : Square) : square_rank s < 8 := by
  have := s.isLt
  unfold square_rank; omega

theorem square_eq_of_file_rank {s t : Square}
    (hf : square_file s = square_file t) (hr : square_rank s = square_rank t) : s = t := by
  unfold square_file at hf
  unfold square_rank at hr
  exact Fin.ext (by omega)

theorem mem_bb_or {s : Square} {a b : Bitboard} :
    mem_bb s (a ||| b) ↔ mem_bb s a ∨ mem_bb s b := by
  unfold mem_bb
  rw [Nat.testBit_or, Bool.or_eq_true]

theorem mem_bb_and {s : Square} {a b : Bitboard} :
    mem_bb s (a &&& b) ↔ mem_bb s a ∧ mem_bb s b := by
  unfold mem_bb
  rw [Nat.testBit_and, Bool.and_eq_true]

theorem testBit_BB_ALL (i : Nat) (hi : i < 64) : BB_ALL.testBit i = true := by
  have h : BB_ALL = 2 ^ 64 - 1 := by norm_num [BB_ALL]
  rw [h, Nat.testBit_two_pow_sub_one]
  exact decide_eq_true hi

theorem mem_bb_not {s : Square} {a : Bitboard} :
    mem_bb s (bb_not a) ↔ ¬ mem_bb s a := by
  unfold mem_bb bb_not
  rw [Nat.testBit_xor, testBit_BB_ALL s.val s.isLt]
  cases h : a.testBit s.val <;> simp

theorem bb_ne_zero_of_mem {s : Square} {bb : Bitboard} (h : mem_bb s bb) : bb ≠ 0 := by
  intro h0
  rw [h0] at h
  unfold mem_bb at h
  rw [Nat.zero_testBit] at h
  exact Bool.noConfusion h

theorem exists_mem_of_ne_zero {bb : Bitboard} (hub : bb < 2 ^ 64) (h : bb ≠ 0) :
    ∃ s : Square, mem_bb s bb := by
  obtain ⟨i, hbit, -⟩ := Nat.exists_most_significant_bit h
  have hi : i < 64 := by
    by_contra hge
    have hlt : bb < 2 ^ i :=
      lt_of_lt_of_le hub (Nat.pow_le_pow_right (by omega) (by omega))
    rw [Nat.testBit_lt_two_pow hlt] at hbit
    exact Bool.noConfusion hbit
  exact ⟨⟨i, hi⟩, hbit⟩

theorem mem_BB_FILES_fin : ∀ (s : Square) (f : Fin 8),
    mem_bb s (BB_FILES f.val) ↔ square_file s = f.val := by decide

theorem mem_BB_FILES {s : Square} {f : Nat} (hf : f < 8) :
    mem_bb s (BB_FILES f) ↔ square_file s = f :=
  mem_BB_FILES_fin s ⟨f, hf⟩

theorem mem_BB_RANKS_fin : ∀ (s : Square) (r : Fin 8),
    mem_bb s (BB_RANKS r.val) ↔ square_rank s = r.val := by decide

theorem mem_BB_RANKS {s : Square} {r : Nat} (hr : r < 8) :
    mem_bb s (BB_RANKS r) ↔ square_rank s = r :=
  mem_BB_RANKS_fin s ⟨r, hr⟩

theorem mem_BB_SQUARES : ∀ s t : Square, mem_bb s (BB_SQUARES t) ↔ s = t := by decide

theorem BB_FILES_lt : ∀ f : Fin 8, BB_FILES f.val < 2 ^ 64 := by decide

theorem BB_RANKS_lt : ∀ r : Fin 8, BB_RANKS r.val < 2 ^ 64 := by decide

theorem shares_line_refl (s : Square) : shares_line s s := Or.inl rfl

theorem shares_line_iff (s1 s2 : Square) :
    ((square_file s2 : Int) - (square_file s1 : Int) = 0 ∨
      (square_rank s2 : Int) - (square_rank s1 : Int) = 0 ∨
      ((square_file s2 : Int) - (square_file s1 : Int)).natAbs =
        ((square_rank s2 : Int) - (square_rank s1 : Int)).natAbs) ↔
      shares_line s1 s2 := by
  unfold shares_line square_file square_rank
  omega

theorem _sign_eq_zero_iff (x : Int) : _sign x = 0 ↔ x = 0 := by
  unfold _sign
  split_ifs <;> omega

theorem _sign_trichotomy (x : Int) : _sign x = -1 ∨ _sign x = 0 ∨ _sign x = 1 := by
  unfold _sign
  split_ifs <;> omega

theorem sign_pair_mem_dirList {x y : Int} (h : ¬(x = 0 ∧ y = 0)) :
    (_sign x, _sign y) ∈ dirList := by
  have hx' : ¬(_sign x = 0 ∧ _sign y = 0) := by
    rw [_sign_eq_zero_iff, _sign_eq_zero_iff]
    exact h
  rcases _sign_trichotomy x with hx | hx | hx <;>
    rcases _sign_trichotomy y with hy | hy | hy <;>
      rw [hx, hy] <;>
        first
          | decide
          | exact absurd ⟨hx, hy⟩ hx'

theorem _sliding_delta_eq {s1 s2 : Square} (hne : s1 ≠ s2) (hsh : shares_line s1 s2) :
    _sliding_delta s1 s2 =
      some (_sign ((square_rank s2 : Int) - (square_rank s1 : Int)) * 8 +
        _sign ((square_file s2 : Int) - (square_file s1 : Int))) := by
  unfold _sliding_delta
  rw [if_neg hne, if_pos ((shares_line_iff s1 s2).mpr hsh)]

theorem _sliding_delta_none {s1 s2 : Square} (hsh : ¬ shares_line s1 s2) :
    _sliding_delta s1 s2 = none := by
  have hne : s1 ≠ s2 := fun he => hsh (he ▸ shares_line_refl s1)
  unfold _sliding_delta
  rw [if_neg hne, if_neg (fun hc => hsh ((shares_line_iff s1 s2).mp hc))]

set_option maxHeartbeats 4000000 in
theorem ray_dir_eq : ∀ o : Square, ∀ p ∈ dirList,
    _sliding_attacks o 0 [p.2 * 8 + p.1] ||| BB_SQUARES o = ray_spec_dir o p.1 p.2 := by decide

set_option maxHeartbeats 1000000 in
theorem extend_ray_eq_ray_spec {o t : Square} (hne : o ≠ t) (hsh : shares_line o t) :
    _extend_ray_from_towards o t = some (ray_spec o t) := by
  have hnz : ¬(((square_file t : Int) - (square_file o : Int)) = 0 ∧
      ((square_rank t : Int) - (square_rank o : Int)) = 0) := by
    rintro ⟨hf, hr⟩
    exact hne (square_eq_of_file_rank (by omega) (by omega))
  have hmem := sign_pair_mem_dirList hnz
  have h := ray_dir_eq o _ hmem
  unfold _extend_ray_from_towards
  rw [_sliding_delta_eq hne hsh]
  unfold ray_spec
  simp only [Option.map_some']
  exact congrArg some h

/-- C3 counterexample: for the distinct, diagonal-sharing pair origin = c3
(index 18) and through = f6 (index 45), the ray helper's result contains the
origin itself, contradicting the claim that it contains neither the origin
nor the squares strictly between origin and through. -/
theorem claim_C3_counterexample :
    (18 : Square) ≠ (45 : Square) ∧ shares_line 18 45 ∧ mem_bb 18 (bb_ray 18 45) := by
  decide

/-- C3 (amended): for every pair of distinct squares sharing a file, rank,
or diagonal, the ray helper returns exactly the squares reached from the
origin by stepping toward (and then past) `through` to the board edge —
inclusive of the origin, the squares between origin and `through`, and
`through` itself. -/
theorem claim_C3 : ∀ origin towards : Square, origin ≠ towards →
    shares_line origin towards →
    _extend_ray_from_towards origin towards = some (ray_spec origin towards) :=
  fun _ _ hne hsh => extend_ray_eq_ray_spec hne hsh

/-- Witness for C3 at origin = c3, through = f6. -/
theorem claim_C3_witness :
    (18 : Square) ≠ (45 : Square) ∧ shares_line 18 45 ∧
      _extend_ray_from_towards 18 45 = some (ray_spec 18 45) :=
  ⟨by decide, by decide, claim_C3 18 45 (by decide) (by decide)⟩

/-- C8: the ray helper fails (returns `none`, embedding the raised
`AssertionError`) exactly when the two squares do not share a file, rank,
or diagonal; on distinct squares that do share one it succeeds. -/
theorem claim_C8 : ∀ s1 s2 : Square,
    (¬ shares_line s1 s2 → _extend_ray_from_towards s1 s2 = none) ∧
    (s1 ≠ s2 → shares_line s1 s2 → (_extend_ray_from_towards s1 s2).isSome = true) := by
  intro s1 s2
  constructor
  · intro hsh
    unfold _extend_ray_from_towards
    rw [_sliding_delta_none hsh]
    rfl
  · intro hne hsh
    unfold _extend_ray_from_towards
    rw [_sliding_delta_eq hne hsh]
    rfl

/-- Witness for C8: a1 / b3 (a knight hop apart) fail, a1 / b2 (diagonal)
succeed. -/
theorem claim_C8_witness :
    _extend_ray_from_towards 0 17 = none ∧ (_extend_ray_from_towards 0 9).isSome = true :=
  ⟨(claim_C8 0 17).1 (by decide), (claim_C8 0 9).2 (by decide) (by decide)⟩

/-- C10: enumerating pawn SANs without a color filter yields exactly the
union of the White-only and Black-only enumerations. -/
theorem claim_C10 :
    get_pawn_sans none = get_pawn_sans (some WHITE) ∪ get_pawn_sans (some BLACK) := by
  simp [get_pawn_sans, pawn_san_list, WHITE, BLACK, List.toFinset_append]

set_option maxHeartbeats 4000000 in
theorem bishop_mem_ray : ∀ to_square o : Square,
    mem_bb o (attacks_bb .B to_square) → mem_bb o (bb_ray to_square o) := by decide

set_option maxHeartbeats 4000000 in
theorem rook_mem_ray : ∀ to_square o : Square,
    mem_bb o (attacks_bb .R to_square) → mem_bb o (bb_ray to_square o) := by decide

theorem queen_mem_ray : ∀ to_square o : Square,
    mem_bb o (attacks_bb .Q to_square) → mem_bb o (bb_ray to_square o) := by
  intro to_square o h
  have h' : mem_bb o (attacks_bb .B to_square) ∨ mem_bb o (attacks_bb .R to_square) :=
    mem_bb_or.mp h
  rcases h' with hb | hr
  · exact bishop_mem_ray to_square o hb
  · exact rook_mem_ray to_square o hr

theorem sliding_mem_ray {p : PieceSymbol} (hp : is_sliding_piece p) :
    ∀ to_square o : Square,
      mem_bb o (attacks_bb p to_square) → mem_bb o (bb_ray to_square o) := by
  cases p
  · exact absurd rfl hp
  · exact bishop_mem_ray
  · exact rook_mem_ray
  · exact queen_mem_ray

theorem and_file_ne_zero_iff {X : Bitboard} {fo : Nat} (hfo : fo < 8) :
    X &&& BB_FILES fo ≠ 0 ↔ ∃ s : Square, mem_bb s X ∧ square_file s = fo := by
  constructor
  · intro h
    obtain ⟨s, hs⟩ := exists_mem_of_ne_zero
      (lt_of_le_of_lt Nat.and_le_right (BB_FILES_lt ⟨fo, hfo⟩)) h
    rw [mem_bb_and] at hs
    exact ⟨s, hs.1, (mem_BB_FILES hfo).mp hs.2⟩
  · rintro ⟨s, hX, hf⟩
    exact bb_ne_zero_of_mem (mem_bb_and.mpr ⟨hX, (mem_BB_FILES hfo).mpr hf⟩)

theorem and_rank_ne_zero_iff {X : Bitboard} {ro : Nat} (hro : ro < 8) :
    X &&& BB_RANKS ro ≠ 0 ↔ ∃ s : Square, mem_bb s X ∧ square_rank s = ro := by
  constructor
  · intro h
    obtain ⟨s, hs⟩ := exists_mem_of_ne_zero
      (lt_of_le_of_lt Nat.and_le_right (BB_RANKS_lt ⟨ro, hro⟩)) h
    rw [mem_bb_and] at hs
    exact ⟨s, hs.1, (mem_BB_RANKS hro).mp hs.2⟩
  · rintro ⟨s, hX, hr⟩
    exact bb_ne_zero_of_mem (mem_bb_and.mpr ⟨hX, (mem_BB_RANKS hro).mpr hr⟩)

theorem exists_rank_mask_iff {Y : Bitboard} (hY : Y < 2 ^ 64) :
    (∃ r : Fin 8, BB_RANKS r.val &&& Y ≠ 0) ↔ Y ≠ 0 := by
  constructor
  · rintro ⟨r, hr⟩
    obtain ⟨s, hs⟩ := exists_mem_of_ne_zero
      (lt_of_le_of_lt Nat.and_le_left (BB_RANKS_lt r)) hr
    exact bb_ne_zero_of_mem (mem_bb_and.mp hs).2
  · intro h
    obtain ⟨s, hs⟩ := exists_mem_of_ne_zero hY h
    refine ⟨⟨square_rank s, square_rank_lt s⟩, @bb_ne_zero_of_mem s _ ?_⟩
    exact mem_bb_and.mpr ⟨(mem_BB_RANKS_fin s _).mpr rfl, hs⟩

theorem bb_base_sliding {p : PieceSymbol} (hp : is_sliding_piece p)
    (to_square o : Square) :
    bb_base p to_square o = attacks_bb p to_square &&& bb_not (bb_ray to_square o) := by
  unfold bb_base
  rw [if_pos hp]

/-- C1: for a sliding piece and an origin `o` in the attack set of the
target, the enumeration's rank-discriminator test fires exactly when the
relevant other-origin set (the attack set minus the ray from the target
through `o` extended to the edge), intersected with `o`'s own file, still
has a member on a different rank than `o`. -/
theorem claim_C1 (p : PieceSymbol) (hp : is_sliding_piece p) (to_square o : Square)
    (ho : mem_bb o (attacks_bb p to_square)) :
    rank_discriminator_cond p to_square o ↔
      ∃ s : Square,
        mem_bb s (attacks_bb p to_square &&& bb_not (bb_ray to_square o)) ∧
        square_file s = square_file o ∧ square_rank s ≠ square_rank o := by
  unfold rank_discriminator_cond
  rw [bb_base_sliding hp]
  have hX : attacks_bb p to_square &&& bb_not (bb_ray to_square o) &&&
      BB_FILES (square_file o) < 2 ^ 64 :=
    lt_of_le_of_lt Nat.and_le_right (BB_FILES_lt ⟨square_file o, square_file_lt o⟩)
  rw [exists_rank_mask_iff hX, and_file_ne_zero_iff (square_file_lt o)]
  constructor
  · rintro ⟨s, hsX, hf⟩
    refine ⟨s, hsX, hf, fun hrk => ?_⟩
    have hso : s = o := square_eq_of_file_rank hf hrk
    subst hso
    have hmem := mem_bb_and.mp hsX
    exact (mem_bb_not.mp hmem.2) (sliding_mem_ray hp to_square s hmem.1)
  · rintro ⟨s, hsX, hf, -⟩
    exact ⟨s, hsX, hf⟩

/-- Witness for C1: queen, target e4 (28), origin e7 (52); squares e1, e2,
e3 survive the ray subtraction on the e-file. -/
theorem claim_C1_witness :
    mem_bb (52 : Square) (attacks_bb .Q 28) ∧
      (rank_discriminator_cond .Q 28 52 ↔
        ∃ s : Square,
          mem_bb s (attacks_bb .Q 28 &&& bb_not (bb_ray 28 52)) ∧
          square_file s = square_file (52 : Square) ∧
          square_rank s ≠ square_rank (52 : Square)) :=
  ⟨by decide, claim_C1 .Q (by decide) 28 52 (by decide)⟩

/-- C2: for every piece kind and origin `o` in the attack set of the
target, the enumeration's full-square-discriminator test fires exactly when
the relevant other-origin set (attack set minus the ray through `o` for
sliding pieces, minus `o` itself for knights) has a member sharing `o`'s
file and a member sharing `o`'s rank. -/
theorem claim_C2 (p : PieceSymbol) (to_square o : Square)
    (ho : mem_bb o (attacks_bb p to_square)) :
    square_discriminator_cond p to_square o ↔
      ((∃ s : Square, mem_bb s (bb_base p to_square o) ∧ square_file s = square_file o) ∧
       (∃ s : Square, mem_bb s (bb_base p to_square o) ∧ square_rank s = square_rank o)) := by
  unfold square_discriminator_cond
  rw [and_file_ne_zero_iff (square_file_lt o), and_rank_ne_zero_iff (square_rank_lt o)]

/-- Witness for C2: knight, target d7 (51), origin b8 (57); b6 shares the
b-file and f8 shares rank 8, so the full-square test fires. -/
theorem claim_C2_witness :
    mem_bb (57 : Square) (attacks_bb .N 51) ∧
      (square_discriminator_cond .N 51 57 ↔
        ((∃ s : Square, mem_bb s (bb_base .N 51 57) ∧ square_file s = square_file (57 : Square)) ∧
         (∃ s : Square, mem_bb s (bb_base .N 51 57) ∧ square_rank s = square_rank (57 : Square)))) :=
  ⟨by decide, claim_C2 .N 51 57 (by decide)⟩

theorem pawn_list_some (c : Bool) : pawn_san_list (some c) = pawn_san_list_for_color c := by
  cases c <;> simp [pawn_san_list, WHITE, BLACK]

theorem fst_of_mem_pawn_moves_from {c : Bool} {a : Square} {m : Square × Square}
    (h : m ∈ pawn_moves_from c a) : m.1 = a := by
  unfold pawn_moves_from at h
  rcases List.mem_append.mp h with h' | h'
  · rcases List.mem_append.mp h' with h'' | h''
    · obtain ⟨t, -, rfl⟩ := List.mem_map.mp h''
      rfl
    · rcases hs : shiftSquare a (pawnDir c) with - | t <;> rw [hs] at h'' <;>
        simp at h''
      rw [h'']
  · split at h'
    · rcases hs : shiftSquare a (2 * pawnDir c) with - | t <;> rw [hs] at h' <;>
        simp at h'
      rw [h']
    · simp at h'

theorem mem_pawn_moves_iff {c : Bool} {m : Square × Square} :
    m ∈ pawn_moves c ↔ m.1 ∈ PAWN_OCCUPIABLE ∧ m ∈ pawn_moves_from c m.1 := by
  unfold pawn_moves
  rw [List.mem_toFinset, List.mem_flatMap]
  constructor
  · rintro ⟨a, ha, hm⟩
    have := fst_of_mem_pawn_moves_from hm
    subst this
    exact ⟨ha, hm⟩
  · rintro ⟨ha, hm⟩
    exact ⟨m.1, ha, hm⟩

set_option maxHeartbeats 16000000 in
theorem c5_aux : ∀ color : Bool, ∀ from_sq ∈ PAWN_OCCUPIABLE, ∀ to_sq : Square,
    (from_sq, to_sq) ∈ pawn_moves_from color from_sq →
    square_rank to_sq = pawn_back_rank color →
    pawn_move_base (from_sq, to_sq) ∉ pawn_san_list_for_color color ∧
    ∀ promo ∈ (["Q", "R", "B", "N"] : List String),
      pawn_move_base (from_sq, to_sq) ++ "=" ++ promo ∈ pawn_san_list_for_color color := by
  decide

/-- C5: every generated pawn move whose destination lies on the back rank
relative to its direction yields exactly the four promotion-suffixed
strings and never the bare form. -/
theorem claim_C5 : ∀ color : Bool, ∀ from_sq to_sq : Square,
    (from_sq, to_sq) ∈ pawn_moves color →
    square_rank to_sq = pawn_back_rank color →
    pawn_move_base (from_sq, to_sq) ∉ get_pawn_sans (some color) ∧
    ∀ promo ∈ (["Q", "R", "B", "N"] : List String),
      pawn_move_base (from_sq, to_sq) ++ "=" ++ promo ∈ get_pawn_sans (some color) := by
  intro color from_sq to_sq hm hrank
  rw [mem_pawn_moves_iff] at hm
  have h := c5_aux color from_sq hm.1 to_sq hm.2 hrank
  unfold get_pawn_sans
  rw [pawn_list_some]
  refine ⟨fun hc => h.1 (List.mem_toFinset.mp hc), fun promo hp => ?_⟩
  exact List.mem_toFinset.mpr (h.2 promo hp)

/-- Witness for C5: the White push e7-e8 (squares 52 to 60). -/
theorem claim_C5_witness :
    ((52, 60) : Square × Square) ∈ pawn_moves true ∧
    square_rank (60 : Square) = pawn_back_rank true ∧
    (pawn_move_base ((52 : Square), (60 : Square)) ∉ get_pawn_sans (some true) ∧
      ∀ promo ∈ (["Q", "R", "B", "N"] : List String),
        pawn_move_base ((52 : Square), (60 : Square)) ++ "=" ++ promo ∈
          get_pawn_sans (some true)) :=
  ⟨by decide, by decide, claim_C5 true 52 60 (by decide) (by decide)⟩

set_option maxHeartbeats 4000000 in
theorem king_form : ∀ s ∈ get_king_sans, s = "O-O" ∨ s = "O-O-O" ∨
    ∃ t : Square, s = "K" ++ square_name t ∨ s = "Kx" ++ square_name t := by
  simp only [get_king_sans, List.mem_toFinset]
  decide

theorem disc_no_x : ∀ d ∈ discriminator_strings, 'x' ∉ d.data := by decide

theorem disc_no_dash : ∀ d ∈ discriminator_strings, '-' ∉ d.data := by decide

theorem square_name_no_x : ∀ t : Square, 'x' ∉ (square_name t).data := by decide

theorem square_name_no_dash : ∀ t : Square, '-' ∉ (square_name t).data := by decide

theorem square_name_strlen : ∀ t : Square, (square_name t).length = 2 := by decide

theorem string_length_ne_zero {d : String} (h : d ≠ "") : d.length ≠ 0 := by
  intro h0
  apply h
  apply String.ext
  have h1 : d.data.length = 0 := h0
  exact List.length_eq_zero.mp h1

theorem mem_data_append {c : Char} {x y : String} :
    c ∈ (x ++ y).data ↔ c ∈ x.data ∨ c ∈ y.data := by
  rw [String.data_append, List.mem_append]

/-- C6: every king SAN string is a castling token or the letter K, an
optional capture x, and the target square; no king string carries a file,
rank, or square discriminator. -/
theorem claim_C6 :
    (∀ s ∈ get_king_sans, s = "O-O" ∨ s = "O-O-O" ∨
      ∃ t : Square, s = "K" ++ square_name t ∨ s = "Kx" ++ square_name t) ∧
    (∀ d ∈ discriminator_strings, d ≠ "" → ∀ t : Square,
      ("K" ++ d ++ square_name t) ∉ get_king_sans ∧
      ("K" ++ d ++ "x" ++ square_name t) ∉ get_king_sans) := by
  refine ⟨king_form, ?_⟩
  intro d hd hne t
  have hdx : 'x' ∉ d.data := disc_no_x d hd
  have hdd : '-' ∉ d.data := disc_no_dash d hd
  have hdlen : d.length ≠ 0 := string_length_ne_zero hne
  have hK : ("K" : String).length = 1 := rfl
  have hKx : ("Kx" : String).length = 2 := rfl
  have hx1 : ("x" : String).length = 1 := rfl
  constructor
  · intro hmem
    rcases king_form _ hmem with h | h | ⟨u, h | h⟩
    · have hlen := congrArg String.length h
      rw [String.length_append, String.length_append, square_name_strlen] at hlen
      have hO : ("O-O" : String).length = 3 := rfl
      rw [hK, hO] at hlen
      omega
    · have hc : '-' ∈ ("K" ++ d ++ square_name t).data := by
        rw [h]; decide
      rcases mem_data_append.mp hc with hc' | hc'
      · rcases mem_data_append.mp hc' with hc'' | hc''
        · exact absurd hc'' (by decide)
        · exact hdd hc''
      · exact square_name_no_dash t hc'
    · have hlen := congrArg String.length h
      rw [String.length_append, String.length_append, String.length_append,
        square_name_strlen, square_name_strlen, hK] at hlen
      omega
    · have hc : 'x' ∈ ("K" ++ d ++ square_name t).data := by
        rw [h, mem_data_append]
        left
        decide
      rcases mem_data_append.mp hc with hc' | hc'
      · rcases mem_data_append.mp hc' with hc'' | hc''
        · exact absurd hc'' (by decide)
        · exact hdx hc''
      · exact square_name_no_x t hc'
  · intro hmem
    have hxmem : 'x' ∈ ("K" ++ d ++ "x" ++ square_name t).data := by
      rw [mem_data_append]
      left
      rw [mem_data_append]
      right
      decide
    rcases king_form _ hmem with h | h | ⟨u, h | h⟩
    · rw [h] at hxmem
      exact absurd hxmem (by decide)
    · rw [h] at hxmem
      exact absurd hxmem (by decide)
    · rw [h] at hxmem
      rcases mem_data_append.mp hxmem with hc' | hc'
      · exact absurd hc' (by decide)
      · exact square_name_no_x u hc'
    · have hlen := congrArg String.length h
      rw [String.length_append, String.length_append, String.length_append,
        String.length_append, square_name_strlen, square_name_strlen,
        hK, hKx, hx1] at hlen
      omega

/-- Witness for C6: the string "Ke4" and the file discriminator "e" at
target e4 (28). -/
theorem claim_C6_witness :
    ("Ke4" = "O-O" ∨ "Ke4" = "O-O-O" ∨
      ∃ t : Square, "Ke4" = "K" ++ square_name t ∨ "Ke4" = "Kx" ++ square_name t) ∧
    ("K" ++ "e" ++ square_name (28 : Square)) ∉ get_king_sans :=
  ⟨claim_C6.1 "Ke4" (by decide), (claim_C6.2 "e" (by decide) (by decide) 28).1⟩

theorem mem_piece_san_list {p : PieceSymbol} {to_square : Square} {s : String}
    (h : s ∈ piece_sans_at p to_square) : s ∈ get_piece_sans p := by
  unfold get_piece_sans piece_san_list
  rw [List.mem_toFinset, List.mem_flatMap]
  exact ⟨to_square, List.mem_finRange to_square, h⟩

set_option maxHeartbeats 4000000 in
theorem nbd7_mem : "Nbd7" ∈ get_piece_sans .N :=
  @mem_piece_san_list _ 51 _ (by decide)

set_option maxHeartbeats 4000000 in
theorem nfd7_mem : "Nfd7" ∈ get_piece_sans .N :=
  @mem_piece_san_list _ 51 _ (by decide)

set_option maxHeartbeats 4000000 in
theorem n8d7_mem : "N8d7" ∈ get_piece_sans .N :=
  @mem_piece_san_list _ 51 _ (by decide)

theorem mem_all_sans_knight {s : String} (h : s ∈ get_piece_sans .N) : s ∈ all_sans := by
  unfold all_sans
  simp only [Finset.mem_union]
  exact Or.inl (Or.inl (Or.inl (Or.inl (Or.inr h))))

theorem mem_all_sans_pawn {s : String} (h : s ∈ get_pawn_sans none) : s ∈ all_sans := by
  unfold all_sans
  simp only [Finset.mem_union]
  exact Or.inl (Or.inl (Or.inl (Or.inl (Or.inl h))))

theorem mem_seqA_iff {s : String} : s ∈ seqA ↔ s ∈ all_sans := by
  unfold seqA
  exact Finset.mem_sort san_key_order

theorem n8d7_seqA : "N8d7" ∈ seqA :=
  mem_seqA_iff.mpr (mem_all_sans_knight n8d7_mem)

/-- C4 counterexample: sequence A does contain "N8d7" (the b8 knight needs
a rank discriminator when the other knight sits on b6, the same file), so
the claim as stated is false. -/
theorem claim_C4_counterexample :
    ¬ ("Nbd7" ∈ get_piece_sans .N ∧ "Nfd7" ∈ get_piece_sans .N ∧ "N8d7" ∉ seqA) :=
  fun h => h.2.2 n8d7_seqA

/-- C4 (amended): the knight enumeration for target d7 produces "Nbd7" and
"Nfd7", and it also produces the rank-discriminated "N8d7", which therefore
appears in the final catalogue. -/
theorem claim_C4 :
    "Nbd7" ∈ get_piece_sans .N ∧ "Nfd7" ∈ get_piece_sans .N ∧
    "N8d7" ∈ get_piece_sans .N ∧ "N8d7" ∈ seqA :=
  ⟨nbd7_mem, nfd7_mem, n8d7_mem, n8d7_seqA⟩

theorem pawn_list_none :
    pawn_san_list none = pawn_san_list_for_color WHITE ++ pawn_san_list_for_color BLACK := by
  simp [pawn_san_list]

set_option maxHeartbeats 4000000 in
theorem e4_white : "e4" ∈ pawn_san_list_for_color WHITE := by decide

theorem e4_pawn : "e4" ∈ get_pawn_sans none := by
  unfold get_pawn_sans
  rw [List.mem_toFinset, pawn_list_none]
  exact List.mem_append_left _ e4_white

theorem e4_seqA : "e4" ∈ seqA := mem_seqA_iff.mpr (mem_all_sans_pawn e4_pawn)

theorem sanLE_trans : ∀ a b c : String, sanLE a b = true → sanLE b c = true →
    sanLE a c = true := by
  intro a b c hab hbc
  rw [sanLE, decide_eq_true_eq] at hab hbc ⊢
  exact @IsTrans.trans String san_key_order _ a b c hab hbc

theorem sanLE_total : ∀ a b : String, (sanLE a b || sanLE b a) = true := by
  intro a b
  rw [Bool.or_eq_true, sanLE, sanLE, decide_eq_true_eq, decide_eq_true_eq]
  exact @IsTotal.total String san_key_order _ a b

theorem c7_sorted : List.Sorted san_key_order seqB := by
  have hs := List.sorted_mergeSort sanLE_trans sanLE_total
    (["", "+", "#"].flatMap (fun symbol => seqA.map (fun san => san ++ symbol)))
  exact hs.imp (fun h => by rwa [sanLE, decide_eq_true_eq] at h)

theorem flatMap3_length (A : List String) :
    (["", "+", "#"].flatMap (fun symbol => A.map (fun san => san ++ symbol))).length =
      3 * A.length := by
  simp only [List.flatMap_cons, List.flatMap_nil, List.length_append,
    List.length_map, List.length_nil]
  omega

theorem mem_flatMap3 {A : List String} {s : String} (hs : s ∈ A) {sym : String}
    (hsym : sym ∈ (["", "+", "#"] : List String)) :
    s ++ sym ∈ ["", "+", "#"].flatMap (fun symbol => A.map (fun san => san ++ symbol)) :=
  List.mem_flatMap.mpr ⟨sym, hsym, List.mem_map.mpr ⟨s, hs, rfl⟩⟩

theorem c7_len : seqB.length = 3 * seqA.length := by
  unfold seqB
  rw [List.length_mergeSort]
  exact flatMap3_length seqA

theorem c7_mem1 : "e4" ∈ seqB := by
  unfold seqB
  rw [List.mem_mergeSort]
  have h := @mem_flatMap3 _ _ e4_seqA "" (by simp)
  rwa [String.append_empty] at h

theorem c7_mem2 : "e4+" ∈ seqB := by
  unfold seqB
  rw [List.mem_mergeSort]
  exact @mem_flatMap3 _ _ e4_seqA "+" (by simp)

theorem c7_mem3 : "e4#" ∈ seqB := by
  unfold seqB
  rw [List.mem_mergeSort]
  exact @mem_flatMap3 _ _ e4_seqA "#" (by simp)

/-- C7: sequence B is sorted by length then lexicographic order, is a
permutation of the cross product of sequence A with the three suffixes, has
exactly three times the length of sequence A, and contains "e4", "e4+" and
"e4#". -/
theorem claim_C7 :
    List.Sorted san_key_order seqB ∧
    seqB.Perm (["", "+", "#"].flatMap (fun symbol => seqA.map (fun san => san ++ symbol))) ∧
    seqB.length = 3 * seqA.length ∧
    "e4" ∈ seqB ∧ "e4+" ∈ seqB ∧ "e4#" ∈ seqB :=
  ⟨c7_sorted, List.mergeSort_perm _ _, c7_len, c7_mem1, c7_mem2, c7_mem3⟩
theorem symbol_no_x : ∀ p : PieceSymbol, 'x' ∉ (p.symbol).data := by
  intro p
  cases p <;> decide

theorem square_name_inj : ∀ t u : Square, square_name t = square_name u → t = u := by decide

theorem square_name_dlen : ∀ t : Square, (square_name t).data.length = 2 := by decide

theorem file_name_no_x : ∀ o : Square, 'x' ∉ (FILE_NAMES.getD (square_file o) "").data := by
  decide

theorem rank_name_no_x : ∀ o : Square, 'x' ∉ (RANK_NAMES.getD (square_rank o) "").data := by
  decide

theorem string_append_cancel_left {a b c : String} (h : a ++ b = a ++ c) : b = c := by
  have hdata := congrArg String.data h
  rw [String.data_append, String.data_append] at hdata
  exact String.ext (List.append_cancel_left hdata)

theorem append2_inj {sym d d2 nm nm2 : String} (hnm : nm.data.length = nm2.data.length)
    (h : sym ++ d ++ nm = sym ++ d2 ++ nm2) : d = d2 ∧ nm = nm2 := by
  have hdata := congrArg String.data h
  rw [String.data_append, String.data_append, String.data_append,
    String.data_append] at hdata
  rw [List.append_assoc, List.append_assoc] at hdata
  have h1 := List.append_cancel_left hdata
  have hlen : d.data.length = d2.data.length := by
    have h2 := congrArg List.length h1
    rw [List.length_append, List.length_append] at h2
    omega
  obtain ⟨hd, hnm'⟩ := List.append_inj h1 hlen
  exact ⟨String.ext hd, String.ext hnm'⟩

theorem mem_ite_nil {α : Type} {c : Prop} [Decidable c] {l : List α} {a : α} :
    a ∈ (if c then l else []) ↔ c ∧ a ∈ l := by
  split
  · rename_i h
    exact ⟨fun hm => ⟨h, hm⟩, fun hm => hm.2⟩
  · rename_i h
    exact ⟨fun hm => absurd hm (List.not_mem_nil a), fun hm => absurd hm.1 h⟩

theorem mem_add_sans_base {sym d d2 : String} {t t2 : Square}
    (hsym : 'x' ∉ sym.data) (hd : 'x' ∉ d.data) (hd2 : 'x' ∉ d2.data) :
    (sym ++ d ++ square_name t ∈ add_sans_list sym d2 t2) ↔ (d = d2 ∧ t = t2) := by
  unfold add_sans_list
  simp only [List.map, List.mem_cons, List.not_mem_nil, or_false]
  constructor
  · rintro (h | h)
    · rw [String.append_empty] at h
      obtain ⟨hdd, hnm⟩ := append2_inj (by rw [square_name_dlen, square_name_dlen]) h
      exact ⟨hdd, square_name_inj _ _ hnm⟩
    · exfalso
      have hc : 'x' ∈ (sym ++ d ++ square_name t).data := by
        rw [h, mem_data_append]
        left
        rw [mem_data_append]
        right
        decide
      rcases mem_data_append.mp hc with hc' | hc'
      · rcases mem_data_append.mp hc' with hc'' | hc''
        · exact hsym hc''
        · exact hd hc''
      · exact square_name_no_x t hc'
  · rintro ⟨rfl, rfl⟩
    left
    rw [String.append_empty]

theorem mem_add_sans_capt {sym d d2 : String} {t t2 : Square}
    (hsym : 'x' ∉ sym.data) (hd : 'x' ∉ d.data) (hd2 : 'x' ∉ d2.data) :
    (sym ++ d ++ "x" ++ square_name t ∈ add_sans_list sym d2 t2) ↔ (d = d2 ∧ t = t2) := by
  unfold add_sans_list
  simp only [List.map, List.mem_cons, List.not_mem_nil, or_false]
  constructor
  · rintro (h | h)
    · exfalso
      have hc : 'x' ∈ (sym ++ d2 ++ "" ++ square_name t2).data := by
        rw [← h, mem_data_append]
        left
        rw [mem_data_append]
        right
        decide
      rcases mem_data_append.mp hc with hc' | hc'
      · rcases mem_data_append.mp hc' with hc'' | hc''
        · rcases mem_data_append.mp hc'' with hc3 | hc3
          · exact hsym hc3
          · exact hd2 hc3
        · exact absurd hc'' (by decide)
      · exact square_name_no_x t2 hc'
    · have h' : sym ++ d ++ ("x" ++ square_name t) = sym ++ d2 ++ ("x" ++ square_name t2) := by
        rw [← String.append_assoc, ← String.append_assoc]
        exact h
      have hlen2 : ("x" ++ square_name t).data.length =
          ("x" ++ square_name t2).data.length := by
        rw [String.data_append, String.data_append, List.length_append,
          List.length_append, square_name_dlen, square_name_dlen]
      obtain ⟨hdd, hnm⟩ := append2_inj hlen2 h'
      refine ⟨hdd, square_name_inj _ _ (string_append_cancel_left hnm)⟩
  · rintro ⟨rfl, rfl⟩
    right
    rfl

theorem mem_piece_sans_at_iff {p : PieceSymbol} {to_square : Square} {s : String} :
    s ∈ piece_sans_at p to_square ↔
      s ∈ add_sans_list p.symbol "" to_square ∨
      ∃ o : Square, mem_bb o (attacks_bb p to_square) ∧
        ((file_discriminator_cond p to_square o ∧
            s ∈ add_sans_list p.symbol (FILE_NAMES.getD (square_file o) "") to_square) ∨
         (rank_discriminator_cond p to_square o ∧
            s ∈ add_sans_list p.symbol (RANK_NAMES.getD (square_rank o) "") to_square) ∨
         (square_discriminator_cond p to_square o ∧
            s ∈ add_sans_list p.symbol (square_name o) to_square)) := by
  unfold piece_sans_at squaresList
  simp only [List.mem_append, List.mem_flatMap, List.mem_filter, List.mem_finRange,
    true_and, decide_eq_true_eq, mem_ite_nil, or_assoc]

/-- C9: for every piece symbol, discriminator string and target square, the
non-capture SAN string is in the piece enumeration if and only if its
capture variant is: add_sans always inserts the two as a pair. -/
theorem claim_C9 : ∀ p : PieceSymbol, ∀ d ∈ discriminator_strings, ∀ t : Square,
    (p.symbol ++ d ++ square_name t ∈ get_piece_sans p ↔
     p.symbol ++ d ++ "x" ++ square_name t ∈ get_piece_sans p) := by
  intro p d hd t
  have hdx := disc_no_x d hd
  have hsym := symbol_no_x p
  unfold get_piece_sans piece_san_list squaresList
  rw [List.mem_toFinset, List.mem_toFinset, List.mem_flatMap, List.mem_flatMap]
  apply exists_congr
  intro to_square
  apply and_congr_right
  intro _
  rw [mem_piece_sans_at_iff, mem_piece_sans_at_iff]
  apply or_congr
  · rw [mem_add_sans_base hsym hdx (by decide), mem_add_sans_capt hsym hdx (by decide)]
  · apply exists_congr
    intro o
    apply and_congr_right
    intro _
    apply or_congr
    · exact and_congr_right (fun _ => by
        rw [mem_add_sans_base hsym hdx (file_name_no_x o),
          mem_add_sans_capt hsym hdx (file_name_no_x o)])
    · apply or_congr
      · exact and_congr_right (fun _ => by
          rw [mem_add_sans_base hsym hdx (rank_name_no_x o),
            mem_add_sans_capt hsym hdx (rank_name_no_x o)])
      · exact and_congr_right (fun _ => by
          rw [mem_add_sans_base hsym hdx (square_name_no_x o),
            mem_add_sans_capt hsym hdx (square_name_no_x o)])

/-- Witness for C9: knight, file discriminator "b", target d7 (51). -/
theorem claim_C9_witness :
    "b" ∈ discriminator_strings ∧
    ((PieceSymbol.N.symbol ++ "b" ++ square_name (51 : Square) ∈ get_piece_sans .N) ↔
      (PieceSymbol.N.symbol ++ "b" ++ "x" ++ square_name (51 : Square) ∈ get_piece_sans .N)) :=
  ⟨by decide, claim_C9 .N "b" (by decide) 51⟩


end SanStrings
